import Mathlib

/-!
# Calorimeter truth accumulator and jet lego builder

A shallow embedding of

* `SimGeneral/CaloAnalysis/plugins/CaloTruthAccumulatorWithGraph.h`
  (`EdgeProperty`, `VertexProperty`, `DecayChain`, `calo_particles`), and
* `Fireworks/Calo/src/CaloJetProxyEveLegoBuilder.cc` (`build`).

Conventions.  A `const SimTrack*` is an `Option Nat` (`none` is `nullptr`, `some a`
an address).  The `int` hit counters are integers; the counters are bounded by the
number of hits of one event, so no wrap-around is modelled.  `uint32_t` cluster
indices are naturals (they are only stored and exchanged, never computed with).
-/

namespace Cmssw

/-! ## Definitions: graph properties -/

/-- The property carried by an edge of the decay chain (header lines 67-73). -/
structure EdgeProperty where
  simTrack : Option Nat
  simHits : Int
  cumulative_simHits : Int
deriving DecidableEq

/-- The property carried by a vertex of the decay chain (header lines 75-82). -/
structure VertexProperty where
  simTrack : Option Nat
  cumulative_simHits : Int
deriving DecidableEq

/-- Constructor `EdgeProperty(const SimTrack* t, int h, int c)`. -/
def EdgeProperty.ctor (t : Option Nat) (h c : Int) : EdgeProperty :=
  { simTrack := t, simHits := h, cumulative_simHits := c }

/-- Default constructor `VertexProperty()`. -/
def VertexProperty.default : VertexProperty :=
  { simTrack := none, cumulative_simHits := 0 }

/-- Constructor `VertexProperty(const SimTrack* t, int c)`. -/
def VertexProperty.ctor (t : Option Nat) (c : Int) : VertexProperty :=
  { simTrack := t, cumulative_simHits := c }

/-- Copy constructor `VertexProperty(const VertexProperty& other)`. -/
def VertexProperty.copy (other : VertexProperty) : VertexProperty :=
  { simTrack := other.simTrack, cumulative_simHits := other.cumulative_simHits }

/-! ## Definitions: the decay chain

`DecayChain` is `adjacency_list<listS, vecS, directedS, VertexMotherParticleProperty,
EdgeParticleClustersProperty>` (header lines 84-88): a vector of vertices indexed by
number, each with its property and the list of its out-edges. -/

/-- An out-edge as the adjacency list stores it: target vertex and edge property. -/
structure StoredEdge where
  target : Nat
  prop : EdgeProperty
deriving DecidableEq

/-- A vertex as the adjacency list stores it: out-edge list and vertex property. -/
structure StoredVertex where
  out_edges : List StoredEdge
  prop : VertexProperty
deriving DecidableEq

/-- The graph type `DecayChain`. -/
structure DecayChain where
  vertices : List StoredVertex
deriving DecidableEq

/-- Graph function `num_vertices(g)`. -/
def DecayChain.num_vertices (g : DecayChain) : Nat := g.vertices.length

/-- Graph function `out_edges(v, g)`, as the list of stored out-edges of `v`. -/
def DecayChain.out_edges (g : DecayChain) (v : Nat) : List StoredEdge :=
  match g.vertices[v]? with
  | some sv => sv.out_edges
  | none => []

/-- Graph function `get(vertex_name, g, v)`. -/
def DecayChain.get_vertex (g : DecayChain) (v : Nat) : VertexProperty :=
  match g.vertices[v]? with
  | some sv => sv.prop
  | none => VertexProperty.default

/-- Graph function `put(vertex_name, g, v, p)`. -/
def DecayChain.put_vertex (g : DecayChain) (v : Nat) (p : VertexProperty) : DecayChain :=
  match g.vertices[v]? with
  | some sv => { vertices := g.vertices.set v { sv with prop := p } }
  | none => g

/-- Graph function `put(edge_weight, g, e, p)`, the edge `e` being the out-edge number `j`
of vertex `v`. -/
def DecayChain.put_edge (g : DecayChain) (v j : Nat) (p : EdgeProperty) : DecayChain :=
  match g.vertices[v]? with
  | some sv =>
    match sv.out_edges[j]? with
    | some e =>
      { vertices := g.vertices.set v
          { sv with out_edges := sv.out_edges.set j { e with prop := p } } }
    | none => g
  | none => g

/-- Graph function `add_edge(u, v, p, g)` for vertex storage `vecS`: the vertex vector is
grown with default-constructed vertices until both end points exist, then the edge is
appended to the out-edge list of `u`. -/
def DecayChain.add_edge (g : DecayChain) (u v : Nat) (p : EdgeProperty) : DecayChain :=
  let n := max g.vertices.length (max u v + 1)
  let vs := g.vertices ++
    List.replicate (n - g.vertices.length)
      { out_edges := [], prop := VertexProperty.default }
  match vs[u]? with
  | some sv =>
    { vertices := vs.set u { sv with out_edges := sv.out_edges ++ [{ target := v, prop := p }] } }
  | none => { vertices := vs }

/-- The sum of the cumulative hit counts of a list of edges. -/
def sumCumulative (es : List StoredEdge) : Int :=
  (es.map (fun e => e.prop.cumulative_simHits)).sum

/-- Modelled from the spec: one child edge of the depth-first annotation (section 4.3; the
traversal code is in the accumulator's implementation file, which is not among the
sources).  The child vertex is processed first, by `visitChild`; then the edge's
cumulative count is set to its own hit count plus the child vertex's cumulative count. -/
def processEdge (visitChild : DecayChain → Nat → DecayChain) (g : DecayChain) (v j : Nat) :
    DecayChain :=
  match (g.out_edges v)[j]? with
  | none => g
  | some e =>
    let g1 := visitChild g e.target
    g1.put_edge v j
      (EdgeProperty.ctor e.prop.simTrack e.prop.simHits
        (e.prop.simHits + (g1.get_vertex e.target).cumulative_simHits))

/-- Modelled from the spec: the post-order visit of one vertex (section 4.3): all child
edges are processed first, in order; then the vertex's cumulative count is set to the sum
of the cumulative counts of its child edges.  The recursion is depth-bounded, as the spec
asks: at depth bound 0 nothing is done. -/
def visit : Nat → DecayChain → Nat → DecayChain
  | 0, g, _ => g
  | depth + 1, g, v =>
    let g1 := (List.range (g.out_edges v).length).foldl
      (fun acc j => processEdge (visit depth) acc v j) g
    g1.put_vertex v
      (VertexProperty.ctor (g1.get_vertex v).simTrack (sumCumulative (g1.out_edges v)))

/-- Modelled from the spec: a root vertex is a vertex with no incoming edge
(section 4.2). -/
def isRoot (g : DecayChain) (v : Nat) : Bool :=
  g.vertices.all (fun sv => sv.out_edges.all (fun e => e.target != v))

/-- Modelled from the spec: the root vertices, in index order. -/
def roots (g : DecayChain) : List Nat :=
  (List.range g.num_vertices).filter (isRoot g)

/-- Modelled from the spec: the cumulative-hit annotation (section 4.3): one depth-first
traversal from every root vertex.  The depth bound is the number of vertices, which no
path of an acyclic graph exceeds. -/
def annotate (g : DecayChain) : DecayChain :=
  (roots g).foldl (fun acc r => visit g.num_vertices acc r) g

/-- There is an edge from `u` to `t`. -/
def hasEdge (g : DecayChain) (u t : Nat) : Prop :=
  ∃ e, e ∈ g.out_edges u ∧ e.target = t

/-- Every edge points to an existing vertex (the vertex storage `vecS` guarantees it). -/
def TargetsInRange (g : DecayChain) : Prop :=
  ∀ u t, hasEdge g u t → t < g.num_vertices

/-- The graph has no cycle: no vertex is reached from itself along one or more edges. -/
def Acyclic (g : DecayChain) : Prop :=
  ∀ v, ¬ Relation.TransGen (hasEdge g) v v

/-- The shape of an edge: everything but its cumulative count. -/
def StoredEdge.shape (e : StoredEdge) : Nat × Option Nat × Int :=
  (e.target, e.prop.simTrack, e.prop.simHits)

/-- The shape of a vertex: everything but the cumulative counts. -/
def StoredVertex.shape (sv : StoredVertex) : Option Nat × List (Nat × Option Nat × Int) :=
  (sv.prop.simTrack, sv.out_edges.map StoredEdge.shape)

/-- The shape of a graph: vertices, edges, tracks and own hit counts, without the
cumulative counts. -/
def DecayChain.shape (g : DecayChain) : List (Option Nat × List (Nat × Option Nat × Int)) :=
  g.vertices.map StoredVertex.shape

/-- A checkable certificate of `TargetsInRange` and `Acyclic`: every edge points to an
existing vertex of larger index. -/
def edgesAscend (g : DecayChain) : Bool :=
  (List.range g.num_vertices).all (fun u =>
    (g.out_edges u).all (fun e => decide (u < e.target) && decide (e.target < g.num_vertices)))

/-- The depth bound `depth` is enough to explore everything below `v`: no path from `v`
has `depth` or more edges. -/
def Covers (g : DecayChain) : Nat → Nat → Prop
  | 0, _ => False
  | depth + 1, v => ∀ t, hasEdge g v t → Covers g depth t

/-- The scenario of section 8 of the spec, as a graph: vertex 0 is the root, track A
(10 hits) runs from vertex 0 to vertex 1, where it decays into tracks B (5 hits) and C
(0 hits), which end at the ghost vertices 2 and 3.  All cumulative counts are still 0. -/
def scenarioGraph : DecayChain :=
  { vertices :=
      [ { out_edges := [{ target := 1, prop := EdgeProperty.ctor (some 100) 10 0 }],
          prop := VertexProperty.default },
        { out_edges := [{ target := 2, prop := EdgeProperty.ctor (some 101) 5 0 },
                        { target := 3, prop := EdgeProperty.ctor (some 102) 0 0 }],
          prop := VertexProperty.ctor (some 100) 0 },
        { out_edges := [], prop := VertexProperty.ctor (some 101) 0 },
        { out_edges := [], prop := VertexProperty.ctor (some 102) 0 } ] }

/-- The cumulative count of vertex `u` is the sum of the cumulative counts of its
out-edges. -/
def VSum (g : DecayChain) (u : Nat) : Prop :=
  (g.get_vertex u).cumulative_simHits = sumCumulative (g.out_edges u)

/-- The out-edge number `j` of vertex `u`, if it is a leaf edge (its target has no
out-edges), has cumulative count equal to its own hit count. -/
def LeafOK (g : DecayChain) (u j : Nat) : Prop :=
  ∀ e, (g.out_edges u)[j]? = some e → g.out_edges e.target = [] →
    e.prop.cumulative_simHits = e.prop.simHits

/-- What one visit `f` of vertex `t` does to a graph of the shape of `g0`: it keeps the
shape, keeps every vertex sum and leaf-edge count that was right, and makes them right at
every vertex reachable from `t`. -/
def VisitSpec (g0 : DecayChain) (f : DecayChain → DecayChain) (t : Nat) : Prop :=
  ∀ g, g.shape = g0.shape →
    (f g).shape = g0.shape ∧
    (∀ u, VSum g u → VSum (f g) u) ∧
    (∀ u j, LeafOK g u j → LeafOK (f g) u j) ∧
    (∀ u, Relation.ReflTransGen (hasEdge g0) t u → VSum (f g) u ∧ ∀ j, LeafOK (f g) u j)

/-- Modelled from the spec: a stable particle recovered by the second pass (section 4.4):
its track, its production vertex when known, and its own hit count. -/
structure StableTrack where
  simTrack : Nat
  production : Option Nat
  simHits : Int
deriving DecidableEq

/-- Modelled from the spec: the state of the second pass: the graph, the next free ghost
vertex index, and the ghost indices allocated so far, in order. -/
structure LinkerState where
  graph : DecayChain
  nextGhost : Nat
  ghosts : List Nat
deriving DecidableEq

/-- Modelled from the spec: the first ghost vertex index, `max(real vertex index) + 1`
(section 4.4).  The real vertices are `0 .. num_vertices - 1`; with no real vertex the
first ghost index is 0. -/
def ghostStart (g : DecayChain) : Nat :=
  match g.num_vertices with
  | 0 => 0
  | maxReal + 1 => maxReal + 1

/-- Modelled from the spec: one step of the second pass (section 4.4): a new ghost vertex
index is allocated, and a synthetic edge from the production vertex, if known, to the
ghost vertex is added, carrying own = cumulative = the track's hit count, as a leaf edge
does. -/
def linkStep (st : LinkerState) (t : StableTrack) : LinkerState :=
  let ghost := st.nextGhost
  let g1 :=
    match t.production with
    | some u => st.graph.add_edge u ghost (EdgeProperty.ctor (some t.simTrack) t.simHits t.simHits)
    | none => st.graph
  { graph := g1, nextGhost := ghost + 1, ghosts := st.ghosts ++ [ghost] }

/-- Modelled from the spec: the second pass over the recovered stable tracks
(section 4.4; the code is in the accumulator's implementation file, which is not among
the sources). -/
def linkStableParticles (g : DecayChain) (tracks : List StableTrack) : LinkerState :=
  tracks.foldl linkStep { graph := g, nextGhost := ghostStart g, ghosts := [] }

/-! ## Definitions: `calo_particles` -/

/-- The nested struct `CaloTruthAccumulatorWithGraph::calo_particles`
(header lines 120-133). -/
structure calo_particles where
  sc_start_ : List Nat
  sc_stop_ : List Nat
deriving DecidableEq

/-- Method `swap(calo_particles& oth)`: the two vectors are exchanged one after the other.
The result is the pair (new `*this`, new `oth`). -/
def calo_particles.swap (self oth : calo_particles) : calo_particles × calo_particles :=
  -- sc_start_.swap(oth.sc_start_)
  let self1 : calo_particles := { self with sc_start_ := oth.sc_start_ }
  let oth1 : calo_particles := { oth with sc_start_ := self.sc_start_ }
  -- sc_stop_.swap(oth.sc_stop_)
  let self2 : calo_particles := { self1 with sc_stop_ := oth1.sc_stop_ }
  let oth2 : calo_particles := { oth1 with sc_stop_ := self1.sc_stop_ }
  (self2, oth2)

/-- Method `clear()`: both vectors are cleared. -/
def calo_particles.clear (self : calo_particles) : calo_particles :=
  let self1 : calo_particles := { self with sc_start_ := [] }
  { self1 with sc_stop_ := [] }

/-- Two half-open ranges `[a, b)` and `[c, d)` overlap when they share an index. -/
def rangesOverlap (a b c d : Nat) : Prop := max a c < min b d

instance (a b c d : Nat) : Decidable (rangesOverlap a b c d) := by
  unfold rangesOverlap; infer_instance

/-- The range invariant of a `calo_particles` state: the two vectors have the same length,
every start is at most its stop, and the ranges are pairwise non-overlapping. -/
def calo_particles.rangeInv (s : calo_particles) : Prop :=
  s.sc_start_.length = s.sc_stop_.length ∧
  (∀ i, i < s.sc_start_.length → s.sc_start_.getD i 0 ≤ s.sc_stop_.getD i 0) ∧
  (∀ i, i < s.sc_start_.length → ∀ j, j < s.sc_start_.length → i ≠ j →
    ¬ rangesOverlap (s.sc_start_.getD i 0) (s.sc_stop_.getD i 0)
        (s.sc_start_.getD j 0) (s.sc_stop_.getD j 0))

instance (s : calo_particles) : Decidable s.rangeInv := by
  unfold calo_particles.rangeInv; infer_instance

/-! ## Definitions: `CaloJetProxyEveLegoBuilder::build`

The number type `α` of the coordinates and the functions `cos`, `sin` and the constant
`M_PI` of `<cmath>` are parameters, so that `build` can be read over the real numbers.
ROOT's classes are records of the fields `build` touches. -/

/-- The math library used by `build`: `cos`, `sin` and `M_PI`. -/
structure CMath (α : Type) where
  cos : α → α
  sin : α → α
  M_PI : α

/-- One line of a `TEveStraightLineSet`: start point and end point. -/
structure Line (α : Type) where
  x1 : α
  y1 : α
  z1 : α
  x2 : α
  y2 : α
  z2 : α

/-- Start point of a line. -/
def Line.start {α : Type} (l : Line α) : α × α × α := (l.x1, l.y1, l.z1)

/-- End point of a line. -/
def Line.stop {α : Type} (l : Line α) : α × α × α := (l.x2, l.y2, l.z2)

/-- ROOT's `TEveStraightLineSet`: a named, coloured list of lines. -/
structure TEveStraightLineSet (α : Type) where
  name : String
  lineColor : Nat
  lines : List (Line α)

/-- Constructor `TEveStraightLineSet(name)`; the line colour starts at ROOT's default, which
`build` overwrites at once. -/
def TEveStraightLineSet.ctor {α : Type} (name : String) : TEveStraightLineSet α :=
  { name := name, lineColor := 1, lines := [] }

/-- Method `SetLineColor`. -/
def TEveStraightLineSet.SetLineColor {α : Type} (s : TEveStraightLineSet α) (c : Nat) :
    TEveStraightLineSet α :=
  { s with lineColor := c }

/-- Method `AddLine(x1, y1, z1, x2, y2, z2)`: appends one line. -/
def TEveStraightLineSet.AddLine {α : Type} (s : TEveStraightLineSet α)
    (x1 y1 z1 x2 y2 z2 : α) : TEveStraightLineSet α :=
  { s with lines := s.lines ++ [Line.mk x1 y1 z1 x2 y2 z2] }

/-- A child of a `TEveElementList`: a line set, or some other element (a list handed to
`build` may hold anything). -/
inductive TEveElement (α : Type) where
  | lineSet (s : TEveStraightLineSet α)
  | other (name : String)

/-- ROOT's `TEveElementList`: name, title, main colour and children. -/
structure TEveElementList (α : Type) where
  name : String
  title : String
  mainColor : Nat
  elements : List (TEveElement α)

/-- Constructor `TEveElementList(name, title, doColor)`: an empty list. -/
def TEveElementList.ctor {α : Type} (name title : String) : TEveElementList α :=
  { name := name, title := title, mainColor := 1, elements := [] }

/-- Method `SetMainColor`. -/
def TEveElementList.SetMainColor {α : Type} (l : TEveElementList α) (c : Nat) :
    TEveElementList α :=
  { l with mainColor := c }

/-- Method `DestroyElements`: all children are destroyed. -/
def TEveElementList.DestroyElements {α : Type} (l : TEveElementList α) : TEveElementList α :=
  { l with elements := [] }

/-- Method `AddElement`: appends one child. -/
def TEveElementList.AddElement {α : Type} (l : TEveElementList α) (e : TEveElement α) :
    TEveElementList α :=
  { l with elements := l.elements ++ [e] }

/-- A calorimeter jet, as far as `build` reads it: `eta()` and `phi()`. -/
structure CaloJet (α : Type) where
  eta : α
  phi : α

/-- The event item handed to `build`: its `name()`, the colour of its
`defaultDisplayProperties()`, and what `get(jets)` leaves in the pointer `jets`
(`none` when the collection cannot be obtained). -/
structure FWEventItem (α : Type) where
  name : String
  color : Nat
  jets : Option (List (CaloJet α))

/-- The constant `nLineSegments` of `build`. -/
def nLineSegments : Nat := 20

/-- The constant `jetRadius` of `build`. -/
def jetRadius {α : Type} [Field α] : α := 0.5

/-- The body of the inner loop of `build` (source lines 107-112): one `AddLine` call. -/
def addSegment {α : Type} [Field α] (m : CMath α) (jet : CaloJet α)
    (container : TEveStraightLineSet α) (iphi : Nat) : TEveStraightLineSet α :=
  container.AddLine
    (jet.eta + jetRadius * m.cos (2 * m.M_PI / (nLineSegments : α) * (iphi : α)))
    (jet.phi + jetRadius * m.sin (2 * m.M_PI / (nLineSegments : α) * (iphi : α)))
    0.1
    (jet.eta + jetRadius * m.cos (2 * m.M_PI / (nLineSegments : α) * ((iphi + 1 : Nat) : α)))
    (jet.phi + jetRadius * m.sin (2 * m.M_PI / (nLineSegments : α) * ((iphi + 1 : Nat) : α)))
    0.1

/-- The body of the outer loop of `build` (source lines 102-114) for one jet: a new line
set named after the counter, coloured, filled by the inner loop over
`iphi = 0 .. nLineSegments - 1`. -/
def jetContainer {α : Type} [Field α] (m : CMath α) (iItem : FWEventItem α)
    (counterName : String) (jet : CaloJet α) : TEveStraightLineSet α :=
  (List.range nLineSegments).foldl (addSegment m jet)
    ((TEveStraightLineSet.ctor counterName).SetLineColor iItem.color)

/-- The step of the outer loop of `build`: the state is the list under construction and
the value of the counter. -/
def jetStep {α : Type} [Field α] (m : CMath α) (counterStr : Nat → String)
    (iItem : FWEventItem α) (st : TEveElementList α × Nat) (jet : CaloJet α) :
    TEveElementList α × Nat :=
  (st.1.AddElement (TEveElement.lineSet (jetContainer m iItem (counterStr st.2) jet)),
   st.2 + 1)

/-- The function `CaloJetProxyEveLegoBuilder::build(iItem, product)` (source lines 69-116).
The argument `product` is the list `*product` points to on entry (`none` for a null
pointer), the result is the list it points to on return.  `counterStr k` is the text
`fw::NamedCounter("jet").str()` after `k` increments; the class is declared outside this
source file.  The colour components `rgba` are computed by the source and never used, so
they are left out, as is the message printed when the jets are missing.  `AddLine` takes
`Float_t` arguments; the narrowing of the coordinates is not modelled, the theorems about
coordinates read the arithmetic over the real numbers. -/
def build {α : Type} [Field α] (m : CMath α) (counterStr : Nat → String)
    (iItem : FWEventItem α) (product : Option (TEveElementList α)) :
    Option (TEveElementList α) :=
  let tList : TEveElementList α :=
    match product with
    | none => (TEveElementList.ctor iItem.name "JetsLego").SetMainColor iItem.color
    | some l => l.DestroyElements
  match iItem.jets with
  | none => some tList
  | some jets =>
    let st := jets.foldl (jetStep m counterStr iItem) (tList, 0)
    some st.1

/-- The line with the six coordinates that the inner loop of `build` hands to `AddLine` at
index `iphi` (used to state the theorems about the segments). -/
def segment {α : Type} [Field α] (m : CMath α) (jet : CaloJet α) (iphi : Nat) : Line α :=
  Line.mk
    (jet.eta + jetRadius * m.cos (2 * m.M_PI / (nLineSegments : α) * (iphi : α)))
    (jet.phi + jetRadius * m.sin (2 * m.M_PI / (nLineSegments : α) * (iphi : α)))
    0.1
    (jet.eta + jetRadius * m.cos (2 * m.M_PI / (nLineSegments : α) * ((iphi + 1 : Nat) : α)))
    (jet.phi + jetRadius * m.sin (2 * m.M_PI / (nLineSegments : α) * ((iphi + 1 : Nat) : α)))
    0.1

/-! ## Theorems: graph properties -/

/-- C3, as stated, fails: `EdgeProperty(t, 5, 0)` is an edge property whose cumulative hit
count (0) is below its own hit count (5). -/
theorem EdgeProperty_ctor_not_monotone :
    ¬ ((EdgeProperty.ctor none 5 0).cumulative_simHits ≥ (EdgeProperty.ctor none 5 0).simHits) := by
  decide

/-- C3 (amended): `EdgeProperty(t, h, c)` stores its three arguments unchanged, so the value
it builds has `cumulative_simHits >= simHits` exactly when `c >= h`. -/
theorem EdgeProperty_ctor_cumulative_ge_iff (t : Option Nat) (h c : Int) :
    (EdgeProperty.ctor t h c).simTrack = t ∧
    (EdgeProperty.ctor t h c).simHits = h ∧
    (EdgeProperty.ctor t h c).cumulative_simHits = c ∧
    ((EdgeProperty.ctor t h c).cumulative_simHits ≥ (EdgeProperty.ctor t h c).simHits ↔ c ≥ h) := by
  simp [EdgeProperty.ctor]

/-- C4: the default-constructed `VertexProperty()` has a null `simTrack` and cumulative hit
count 0; the copy constructor keeps both fields, so a copy of a default vertex still has
count 0. -/
theorem VertexProperty_default_and_copy :
    VertexProperty.default.cumulative_simHits = 0 ∧
    VertexProperty.default.simTrack = none ∧
    (∀ other : VertexProperty,
      (VertexProperty.copy other).simTrack = other.simTrack ∧
      (VertexProperty.copy other).cumulative_simHits = other.cumulative_simHits) ∧
    (VertexProperty.copy VertexProperty.default).cumulative_simHits = 0 := by
  refine ⟨rfl, rfl, fun other => ⟨rfl, rfl⟩, rfl⟩

/-! ## Theorems: graph functions -/

/-- Writing a vertex property leaves all out-edge lists alone. -/
theorem out_edges_put_vertex (g : DecayChain) (v : Nat) (p : VertexProperty) (u : Nat) :
    (g.put_vertex v p).out_edges u = g.out_edges u := by
  unfold DecayChain.put_vertex
  cases hv : g.vertices[v]? with
  | none => rfl
  | some sv =>
    simp only [DecayChain.out_edges, List.getElem?_set]
    by_cases huv : v = u
    · subst huv
      have hlt : v < g.vertices.length := (List.getElem?_eq_some_iff.mp hv).1
      simp [hlt, hv]
    · simp [huv]

/-- Writing the property of `v` leaves the property of another vertex alone. -/
theorem get_vertex_put_vertex_ne (g : DecayChain) (v : Nat) (p : VertexProperty) (u : Nat)
    (h : u ≠ v) : (g.put_vertex v p).get_vertex u = g.get_vertex u := by
  unfold DecayChain.put_vertex
  cases hv : g.vertices[v]? with
  | none => rfl
  | some sv =>
    simp only [DecayChain.get_vertex, List.getElem?_set]
    simp [Ne.symm h]

/-- Reading back the property just written to an existing vertex. -/
theorem get_vertex_put_vertex_self (g : DecayChain) (v : Nat) (p : VertexProperty)
    (h : v < g.num_vertices) : (g.put_vertex v p).get_vertex v = p := by
  unfold DecayChain.put_vertex
  have hlt : v < g.vertices.length := h
  have hv : g.vertices[v]? = some g.vertices[v] := List.getElem?_eq_getElem hlt
  rw [hv]
  simp [DecayChain.get_vertex, List.getElem?_set, hlt]

/-- Writing an edge property leaves all vertex properties alone. -/
theorem get_vertex_put_edge (g : DecayChain) (v j : Nat) (p : EdgeProperty) (u : Nat) :
    (g.put_edge v j p).get_vertex u = g.get_vertex u := by
  unfold DecayChain.put_edge
  cases hv : g.vertices[v]? with
  | none => rfl
  | some sv =>
    dsimp only
    cases he : sv.out_edges[j]? with
    | none => rfl
    | some e =>
      simp only [DecayChain.get_vertex, List.getElem?_set]
      by_cases huv : v = u
      · subst huv
        have hlt : v < g.vertices.length := (List.getElem?_eq_some_iff.mp hv).1
        simp [hlt, hv]
      · simp [huv]

/-- Writing an edge of `v` leaves the out-edges of another vertex alone. -/
theorem out_edges_put_edge_ne (g : DecayChain) (v j : Nat) (p : EdgeProperty) (u : Nat)
    (h : u ≠ v) : (g.put_edge v j p).out_edges u = g.out_edges u := by
  unfold DecayChain.put_edge
  cases hv : g.vertices[v]? with
  | none => rfl
  | some sv =>
    dsimp only
    cases he : sv.out_edges[j]? with
    | none => rfl
    | some e =>
      simp only [DecayChain.out_edges, List.getElem?_set]
      simp [Ne.symm h]

/-- Writing the out-edge `j` of `v` replaces the property of that edge only. -/
theorem out_edges_put_edge_self (g : DecayChain) (v j : Nat) (p : EdgeProperty)
    (e : StoredEdge) (he : (g.out_edges v)[j]? = some e) :
    (g.put_edge v j p).out_edges v = (g.out_edges v).set j { e with prop := p } := by
  unfold DecayChain.put_edge
  cases hv : g.vertices[v]? with
  | none => simp [DecayChain.out_edges, hv] at he
  | some sv =>
    have hlt : v < g.vertices.length := (List.getElem?_eq_some_iff.mp hv).1
    have he2 : sv.out_edges[j]? = some e := by simpa [DecayChain.out_edges, hv] using he
    simp [DecayChain.out_edges, hv, he2, List.getElem?_set, hlt]

/-- Writing an edge that does not exist changes nothing. -/
theorem put_edge_of_none (g : DecayChain) (v j : Nat) (p : EdgeProperty)
    (he : (g.out_edges v)[j]? = none) : g.put_edge v j p = g := by
  unfold DecayChain.put_edge
  cases hv : g.vertices[v]? with
  | none => rfl
  | some sv =>
    have he2 : sv.out_edges[j]? = none := by simpa [DecayChain.out_edges, hv] using he
    simp [he2]

/-- Writing a vertex property with the same track keeps the shape. -/
theorem shape_put_vertex (g : DecayChain) (v : Nat) (p : VertexProperty)
    (h : p.simTrack = (g.get_vertex v).simTrack) : (g.put_vertex v p).shape = g.shape := by
  unfold DecayChain.put_vertex
  cases hv : g.vertices[v]? with
  | none => rfl
  | some sv =>
    have hlt : v < g.vertices.length := (List.getElem?_eq_some_iff.mp hv).1
    have hsv : g.vertices[v] = sv := (List.getElem?_eq_some_iff.mp hv).2
    simp only [DecayChain.shape, List.map_set]
    apply List.ext_getElem?
    intro i
    rw [List.getElem?_set]
    by_cases hi : v = i
    · subst hi
      simp [hlt, StoredVertex.shape, hsv]
      simpa [DecayChain.get_vertex, hv] using h
    · simp [hi]

/-- Writing an edge property with the same track and own hit count keeps the shape. -/
theorem shape_put_edge (g : DecayChain) (v j : Nat) (p : EdgeProperty) (e : StoredEdge)
    (he : (g.out_edges v)[j]? = some e) (h1 : p.simTrack = e.prop.simTrack)
    (h2 : p.simHits = e.prop.simHits) : (g.put_edge v j p).shape = g.shape := by
  unfold DecayChain.put_edge
  cases hv : g.vertices[v]? with
  | none => rfl
  | some sv =>
    have hlt : v < g.vertices.length := (List.getElem?_eq_some_iff.mp hv).1
    have hsv : g.vertices[v] = sv := (List.getElem?_eq_some_iff.mp hv).2
    have he2 : sv.out_edges[j]? = some e := by simpa [DecayChain.out_edges, hv] using he
    have hjlt : j < sv.out_edges.length := (List.getElem?_eq_some_iff.mp he2).1
    have hje : sv.out_edges[j] = e := (List.getElem?_eq_some_iff.mp he2).2
    simp only [he2, DecayChain.shape, List.map_set]
    apply List.ext_getElem?
    intro i
    rw [List.getElem?_set]
    by_cases hi : v = i
    · subst hi
      simp only [hlt, StoredVertex.shape, List.map_set, if_true, List.length_map,
        List.getElem?_map, hv, Option.map_some', Option.some.injEq, Prod.mk.injEq, true_and]
      apply List.ext_getElem?
      intro k
      rw [List.getElem?_set]
      by_cases hk : j = k
      · subst hk
        simp [hjlt, StoredEdge.shape, hje, h1, h2]
      · simp [hk]
    · simp [hi]

/-- Graphs of one shape have the same number of vertices. -/
theorem num_vertices_of_shape (g g0 : DecayChain) (h : g.shape = g0.shape) :
    g.num_vertices = g0.num_vertices := by
  have := congrArg List.length h
  simpa [DecayChain.shape, DecayChain.num_vertices] using this

/-- Graphs of one shape have out-edges of the same shapes. -/
theorem out_edges_of_shape (g g0 : DecayChain) (h : g.shape = g0.shape) (u : Nat) :
    (g.out_edges u).map StoredEdge.shape = (g0.out_edges u).map StoredEdge.shape := by
  have h1 : (g.shape)[u]? = (g0.shape)[u]? := by rw [h]
  simp only [DecayChain.shape, List.getElem?_map] at h1
  unfold DecayChain.out_edges
  cases hg : g.vertices[u]? with
  | none =>
    cases hg0 : g0.vertices[u]? with
    | none => rfl
    | some sv0 => simp [hg, hg0] at h1
  | some sv =>
    cases hg0 : g0.vertices[u]? with
    | none => simp [hg, hg0] at h1
    | some sv0 =>
      simp [hg, hg0, StoredVertex.shape] at h1
      exact h1.2

/-- Graphs of one shape have the same out-degrees. -/
theorem length_out_edges_of_shape (g g0 : DecayChain) (h : g.shape = g0.shape) (u : Nat) :
    (g.out_edges u).length = (g0.out_edges u).length := by
  have := congrArg List.length (out_edges_of_shape g g0 h u)
  simpa using this

/-- Graphs of one shape have the same leaves. -/
theorem leaf_of_shape (g g0 : DecayChain) (h : g.shape = g0.shape) (u : Nat) :
    g.out_edges u = [] ↔ g0.out_edges u = [] := by
  rw [← List.length_eq_zero, ← List.length_eq_zero, length_out_edges_of_shape g g0 h u]

/-- An out-edge of a graph has a counterpart of the same shape in a graph of the same shape. -/
theorem edge_of_shape (g g0 : DecayChain) (h : g.shape = g0.shape) (u j : Nat)
    (e : StoredEdge) (he : (g.out_edges u)[j]? = some e) :
    ∃ e0, (g0.out_edges u)[j]? = some e0 ∧ e0.shape = e.shape := by
  have h1 := congrArg (fun l => l[j]?) (out_edges_of_shape g g0 h u)
  simp only [List.getElem?_map, he, Option.map_some'] at h1
  cases h0 : (g0.out_edges u)[j]? with
  | none => simp [h0] at h1
  | some e0 =>
    refine ⟨e0, rfl, ?_⟩
    simpa [h0] using h1.symm

/-- Graphs of one shape have the same edges. -/
theorem hasEdge_of_shape (g g0 : DecayChain) (h : g.shape = g0.shape) (u t : Nat)
    (he : hasEdge g u t) : hasEdge g0 u t := by
  obtain ⟨e, hmem, ht⟩ := he
  obtain ⟨j, hj⟩ := List.getElem?_of_mem hmem
  obtain ⟨e0, h0, hs⟩ := edge_of_shape g g0 h u j e hj
  refine ⟨e0, List.getElem?_mem h0, ?_⟩
  have : e0.target = e.target := congrArg Prod.fst hs
  rw [this, ht]

/-! ## Theorems: folds -/

/-- A property kept by every step of a left fold is kept by the fold. -/
theorem foldl_keeps {σ ι : Type} (step : σ → ι → σ) (P : σ → Prop) (R : ι → Prop)
    (h : ∀ s i, R i → P s → P (step s i)) (l : List ι) (hl : ∀ i ∈ l, R i) (s : σ) (hs : P s) :
    P (l.foldl step s) := by
  induction l generalizing s with
  | nil => exact hs
  | cons i l ih =>
    rw [List.foldl_cons]
    exact ih (fun k hk => hl k (List.mem_cons_of_mem _ hk)) _
      (h s i (hl i (List.mem_cons_self _ _)) hs)

/-- A property established by step `j` and kept by all steps holds after a left fold over
a list that holds `j`. -/
theorem foldl_reaches {σ ι : Type} (step : σ → ι → σ) (I Q : σ → Prop) (R : ι → Prop)
    (j : ι) (hI : ∀ s i, R i → I s → I (step s i))
    (hest : ∀ s, I s → Q (step s j))
    (hpres : ∀ s i, R i → I s → Q s → Q (step s i))
    (l : List ι) (hl : ∀ i ∈ l, R i) (hj : j ∈ l) (s : σ) (hs : I s) :
    Q (l.foldl step s) := by
  induction l generalizing s with
  | nil => cases hj
  | cons i l ih =>
    rw [List.foldl_cons]
    have hRi : R i := hl i (List.mem_cons_self _ _)
    have hl2 : ∀ k ∈ l, R k := fun k hk => hl k (List.mem_cons_of_mem _ hk)
    by_cases hji : j ∈ l
    · exact ih hl2 hji _ (hI s i hRi hs)
    · have hij : j = i := by
        rcases List.mem_cons.mp hj with h | h
        · exact h
        · exact absurd h hji
      subst hij
      have h2 : I (step s j) ∧ Q (step s j) := ⟨hI s j hRi hs, hest s hs⟩
      exact (foldl_keeps step (fun s => I s ∧ Q s) R
        (fun s i hi hs => ⟨hI s i hi hs.1, hpres s i hi hs.1 hs.2⟩) l hl2 _ h2).2

/-! ## Theorems: the annotation -/

/-- Writing an edge of `v` keeps the vertex sum at another vertex. -/
theorem VSum_put_edge_ne (g : DecayChain) (v j : Nat) (p : EdgeProperty) (u : Nat)
    (h : u ≠ v) (hu : VSum g u) : VSum (g.put_edge v j p) u := by
  unfold VSum at *
  rw [get_vertex_put_edge, out_edges_put_edge_ne g v j p u h]
  exact hu

/-- Writing an edge property does not change which vertices are leaves. -/
theorem leaf_put_edge (g : DecayChain) (v j : Nat) (p : EdgeProperty) (t : Nat) :
    (g.put_edge v j p).out_edges t = [] ↔ g.out_edges t = [] := by
  by_cases htv : t = v
  · subst htv
    cases he : (g.out_edges t)[j]? with
    | none => rw [put_edge_of_none g t j p he]
    | some e =>
      rw [out_edges_put_edge_self g t j p e he]
      rw [← List.length_eq_zero, ← List.length_eq_zero, List.length_set]
  · rw [out_edges_put_edge_ne g v j p t htv]

/-- Writing the out-edge `i` of `v` keeps the leaf-edge count of any other edge. -/
theorem LeafOK_put_edge_ne (g : DecayChain) (v i : Nat) (p : EdgeProperty) (u j : Nat)
    (h : u ≠ v ∨ i ≠ j) (hu : LeafOK g u j) : LeafOK (g.put_edge v i p) u j := by
  intro e he hleaf
  rw [leaf_put_edge] at hleaf
  by_cases huv : u = v
  · subst huv
    have hij : i ≠ j := by
      rcases h with h | h
      · exact absurd rfl h
      · exact h
    cases hi : (g.out_edges u)[i]? with
    | none =>
      rw [put_edge_of_none g u i p hi] at he
      exact hu e he hleaf
    | some ei =>
      rw [out_edges_put_edge_self g u i p ei hi, List.getElem?_set_ne hij] at he
      exact hu e he hleaf
  · rw [out_edges_put_edge_ne g v i p u huv] at he
    exact hu e he hleaf

/-- Writing the property of `v` keeps the vertex sum at another vertex. -/
theorem VSum_put_vertex_ne (g : DecayChain) (v : Nat) (p : VertexProperty) (u : Nat)
    (h : u ≠ v) (hu : VSum g u) : VSum (g.put_vertex v p) u := by
  unfold VSum at *
  rw [get_vertex_put_vertex_ne g v p u h, out_edges_put_vertex]
  exact hu

/-- Writing a vertex property keeps all leaf-edge counts. -/
theorem LeafOK_put_vertex (g : DecayChain) (v : Nat) (p : VertexProperty) (u j : Nat)
    (hu : LeafOK g u j) : LeafOK (g.put_vertex v p) u j := by
  intro e he hleaf
  rw [out_edges_put_vertex] at he hleaf
  exact hu e he hleaf

/-- Writing the sum of the out-edges' cumulative counts to `v` makes the vertex sum hold
at `v`. -/
theorem VSum_put_vertex_self (g : DecayChain) (v : Nat) (t : Option Nat) :
    VSum (g.put_vertex v (VertexProperty.ctor t (sumCumulative (g.out_edges v)))) v := by
  unfold VSum
  rw [out_edges_put_vertex]
  by_cases hv : v < g.num_vertices
  · rw [get_vertex_put_vertex_self g v _ hv]
    rfl
  · have hn : g.vertices[v]? = none := List.getElem?_eq_none (by
      simpa [DecayChain.num_vertices] using hv)
    simp [DecayChain.put_vertex, DecayChain.get_vertex, DecayChain.out_edges, hn,
      VertexProperty.default, sumCumulative]

/-- One child edge `i` of `v`, when the visits of the children of `v` meet `VisitSpec`: the
shape is kept; sums and leaf counts at other vertices are kept; the leaf count of edge `i`
is made right and those of the other edges of `v` are kept; and everything reachable from
the child is made right. -/
theorem processEdge_spec (g0 : DecayChain) (f : DecayChain → Nat → DecayChain) (v : Nat)
    (hch : ∀ t, hasEdge g0 v t → VisitSpec g0 (fun g => f g t) t)
    (g : DecayChain) (hg : g.shape = g0.shape) (i : Nat) :
    (processEdge f g v i).shape = g0.shape ∧
    (∀ u, u ≠ v → VSum g u → VSum (processEdge f g v i) u) ∧
    (∀ u j, u ≠ v → LeafOK g u j → LeafOK (processEdge f g v i) u j) ∧
    (∀ j, (i = j ∨ LeafOK g v j) → LeafOK (processEdge f g v i) v j) ∧
    (∀ u e0, u ≠ v → (g0.out_edges v)[i]? = some e0 →
      Relation.ReflTransGen (hasEdge g0) e0.target u →
      VSum (processEdge f g v i) u ∧ ∀ j, LeafOK (processEdge f g v i) u j) := by
  unfold processEdge
  cases he : (g.out_edges v)[i]? with
  | none =>
    refine ⟨hg, fun u _ hu => hu, fun u j _ hu => hu, ?_, ?_⟩
    · intro j hj
      rcases hj with hj | hj
      · subst hj
        intro e he2
        rw [he] at he2
        cases he2
      · exact hj
    · intro u e0 _ he0
      obtain ⟨e1, he1, -⟩ := edge_of_shape g0 g hg.symm v i e0 he0
      rw [he] at he1
      cases he1
  | some e =>
    dsimp only
    have hedge : hasEdge g0 v e.target :=
      hasEdge_of_shape g g0 hg v e.target ⟨e, List.getElem?_mem he, rfl⟩
    obtain ⟨h1, h2, h3, h4⟩ := hch e.target hedge g hg
    dsimp only at h1 h2 h3 h4
    obtain ⟨e1, he1, hs1⟩ := edge_of_shape g (f g e.target) (hg.trans h1.symm) v i e he
    have ht1 : e1.target = e.target := congrArg Prod.fst hs1
    have htr1 : e1.prop.simTrack = e.prop.simTrack := congrArg (fun p => p.2.1) hs1
    have hh1 : e1.prop.simHits = e.prop.simHits := congrArg (fun p => p.2.2) hs1
    refine ⟨?_, ?_, ?_, ?_, ?_⟩
    · refine (shape_put_edge (f g e.target) v i _ e1 he1 ?_ ?_).trans h1
      · exact htr1.symm
      · exact hh1.symm
    · intro u huv hu
      exact VSum_put_edge_ne _ v i _ u huv (h2 u hu)
    · intro u j huv hu
      exact LeafOK_put_edge_ne _ v i _ u j (Or.inl huv) (h3 u j hu)
    · intro j hj
      by_cases hij : i = j
      · subst hij
        intro e2 he2 hleaf
        rw [leaf_put_edge] at hleaf
        rw [out_edges_put_edge_self _ v i _ e1 he1,
          List.getElem?_set_self (List.getElem?_eq_some_iff.mp he1).1] at he2
        cases he2
        dsimp only at hleaf ⊢
        rw [ht1] at hleaf
        have hv : VSum (f g e.target) e.target := (h4 e.target Relation.ReflTransGen.refl).1
        unfold VSum at hv
        rw [hleaf] at hv
        simp [EdgeProperty.ctor, hv, sumCumulative]
      · rcases hj with hj | hj
        · exact absurd hj hij
        · exact LeafOK_put_edge_ne _ v i _ v j (Or.inr hij) (h3 v j hj)
    · intro u e0 huv he0 hreach
      obtain ⟨e0b, he0b, hs0⟩ := edge_of_shape g g0 hg v i e he
      rw [he0] at he0b
      cases he0b
      have ht0 : e0.target = e.target := congrArg Prod.fst hs0
      rw [ht0] at hreach
      obtain ⟨hv, hl⟩ := h4 u hreach
      exact ⟨VSum_put_edge_ne _ v i _ u huv hv,
        fun j => LeafOK_put_edge_ne _ v i _ u j (Or.inl huv) (hl j)⟩

/-- The visit of `v` with a sufficient depth bound meets `VisitSpec`. -/
theorem visit_spec (g0 : DecayChain) :
    ∀ d v, Covers g0 d v → VisitSpec g0 (fun g => visit d g v) v := by
  intro d
  induction d with
  | zero => intro v hc; exact absurd hc (by simp [Covers])
  | succ d ih =>
    intro v hc g hg
    have hch : ∀ t, hasEdge g0 v t → VisitSpec g0 (fun g => visit d g t) t :=
      fun t ht => ih t (hc t ht)
    have hstep := processEdge_spec g0 (visit d) v hch
    -- the state after the loop over the child edges
    have hfold_shape : ∀ (l : List Nat) (s : DecayChain), s.shape = g0.shape →
        (l.foldl (fun acc j => processEdge (visit d) acc v j) s).shape = g0.shape := by
      intro l s hs
      exact foldl_keeps (fun acc j => processEdge (visit d) acc v j)
        (fun s => s.shape = g0.shape) (fun _ => True)
        (fun s i _ hs => (hstep s hs i).1) l (fun _ _ => trivial) s hs
    simp only [visit]
    generalize hl : List.range (g.out_edges v).length = l
    generalize hgf : l.foldl (fun acc j => processEdge (visit d) acc v j) g = gf
    have hgfs : gf.shape = g0.shape := by rw [← hgf]; exact hfold_shape l g hg
    have hkeepV : ∀ u, u ≠ v → VSum g u → VSum gf u := by
      intro u huv hu
      rw [← hgf]
      exact (foldl_keeps (fun acc j => processEdge (visit d) acc v j)
        (fun s => s.shape = g0.shape ∧ VSum s u) (fun _ => True)
        (fun s i _ hs => ⟨(hstep s hs.1 i).1, (hstep s hs.1 i).2.1 u huv hs.2⟩)
        l (fun _ _ => trivial) g ⟨hg, hu⟩).2
    have hkeepL : ∀ u j, u ≠ v → LeafOK g u j → LeafOK gf u j := by
      intro u j huv hu
      rw [← hgf]
      exact (foldl_keeps (fun acc j => processEdge (visit d) acc v j)
        (fun s => s.shape = g0.shape ∧ LeafOK s u j) (fun _ => True)
        (fun s i _ hs => ⟨(hstep s hs.1 i).1, (hstep s hs.1 i).2.2.1 u j huv hs.2⟩)
        l (fun _ _ => trivial) g ⟨hg, hu⟩).2
    have hselfL : ∀ j, LeafOK gf v j := by
      intro j
      by_cases hj : j < (g.out_edges v).length
      · rw [← hgf]
        exact foldl_reaches (fun acc j => processEdge (visit d) acc v j)
          (fun s => s.shape = g0.shape) (fun s => LeafOK s v j) (fun _ => True) j
          (fun s i _ hs => (hstep s hs i).1)
          (fun s hs => (hstep s hs j).2.2.2.1 j (Or.inl rfl))
          (fun s i _ hs hq => (hstep s hs i).2.2.2.1 j (Or.inr hq))
          l (fun _ _ => trivial) (by rw [← hl]; exact List.mem_range.mpr hj) g hg
      · intro e he
        have hlen : (gf.out_edges v).length = (g.out_edges v).length := by
          rw [length_out_edges_of_shape gf g0 hgfs, length_out_edges_of_shape g g0 hg]
        have := (List.getElem?_eq_some_iff.mp he).1
        omega
    have hbelow : ∀ u, u ≠ v → ∀ t, hasEdge g0 v t → Relation.ReflTransGen (hasEdge g0) t u →
        VSum gf u ∧ ∀ j, LeafOK gf u j := by
      intro u huv t ht hreach
      obtain ⟨e0, hmem, hte⟩ := ht
      obtain ⟨i, hi⟩ := List.getElem?_of_mem hmem
      have hilt : i < (g.out_edges v).length := by
        rw [length_out_edges_of_shape g g0 hg]
        exact (List.getElem?_eq_some_iff.mp hi).1
      rw [← hte] at hreach
      rw [← hgf]
      exact foldl_reaches (fun acc j => processEdge (visit d) acc v j)
        (fun s => s.shape = g0.shape) (fun s => VSum s u ∧ ∀ j, LeafOK s u j)
        (fun _ => True) i
        (fun s k _ hs => (hstep s hs k).1)
        (fun s hs => (hstep s hs i).2.2.2.2 u e0 huv hi hreach)
        (fun s k _ hs hq => ⟨(hstep s hs k).2.1 u huv hq.1,
          fun j => (hstep s hs k).2.2.1 u j huv (hq.2 j)⟩)
        l (fun _ _ => trivial) (by rw [← hl]; exact List.mem_range.mpr hilt) g hg
    have hselfV : VSum (gf.put_vertex v (VertexProperty.ctor (gf.get_vertex v).simTrack
        (sumCumulative (gf.out_edges v)))) v := VSum_put_vertex_self gf v _
    refine ⟨?_, ?_, ?_, ?_⟩
    · refine (shape_put_vertex gf v _ ?_).trans hgfs
      rfl
    · intro u hu
      by_cases huv : u = v
      · subst huv; exact hselfV
      · exact VSum_put_vertex_ne gf v _ u huv (hkeepV u huv hu)
    · intro u j hu
      by_cases huv : u = v
      · subst huv; exact LeafOK_put_vertex gf u _ u j (hselfL j)
      · exact LeafOK_put_vertex gf v _ u j (hkeepL u j huv hu)
    · intro u hreach
      by_cases huv : u = v
      · subst huv
        exact ⟨hselfV, fun j => LeafOK_put_vertex gf u _ u j (hselfL j)⟩
      · rcases Relation.ReflTransGen.cases_head hreach with h | ⟨t, ht, hr⟩
        · exact absurd h.symm huv
        · obtain ⟨hv, hl2⟩ := hbelow u huv t ht hr
          exact ⟨VSum_put_vertex_ne gf v _ u huv hv,
            fun j => LeafOK_put_vertex gf v _ u j (hl2 j)⟩

/-! ## Theorems: paths of an acyclic graph -/

/-- A path of an acyclic graph has no repeated vertex. -/
theorem nodup_of_chain (g : DecayChain) (ha : Acyclic g) (p : List Nat)
    (hp : List.Chain' (hasEdge g) p) : p.Nodup := by
  have h1 : List.Chain' (Relation.TransGen (hasEdge g)) p :=
    hp.imp (fun {a b} (h : hasEdge g a b) => Relation.TransGen.single h)
  have h2 : List.Pairwise (Relation.TransGen (hasEdge g)) p := List.chain'_iff_pairwise.mp h1
  unfold List.Nodup
  refine h2.imp ?_
  intro a b hab heq
  apply ha a
  rw [← heq] at hab
  exact hab

/-- A list of distinct numbers below `n` has at most `n` elements. -/
theorem length_le_of_nodup (n : Nat) (p : List Nat) (hn : p.Nodup) (hlt : ∀ x ∈ p, x < n) :
    p.length ≤ n := by
  have h1 : p.toFinset ⊆ Finset.range n := by
    intro x hx
    exact Finset.mem_range.mpr (hlt x (List.mem_toFinset.mp hx))
  have h2 := Finset.card_le_card h1
  rw [List.toFinset_card_of_nodup hn, Finset.card_range] at h2
  exact h2

/-- At the end of a path of `q.length` edges, a depth bound `d` with
`num_vertices <= d + q.length` is sufficient. -/
theorem covers_of_path (g : DecayChain) (hr : TargetsInRange g) (ha : Acyclic g) :
    ∀ (d : Nat) (q : List Nat) (v : Nat), List.Chain' (hasEdge g) (q ++ [v]) →
      (∀ x ∈ q ++ [v], x < g.num_vertices) → g.num_vertices ≤ d + q.length →
      Covers g d v := by
  intro d
  induction d with
  | zero =>
    intro q v hch hlt hlen
    have h1 := length_le_of_nodup g.num_vertices (q ++ [v]) (nodup_of_chain g ha _ hch) hlt
    simp at h1
    omega
  | succ d ih =>
    intro q v hch hlt hlen t ht
    apply ih (q ++ [v]) t
    · refine List.Chain'.append hch (List.chain'_singleton t) ?_
      intro x hx y hy
      simp at hx hy
      rw [← hx, ← hy]
      exact ht
    · intro x hx
      rcases List.mem_append.mp hx with h | h
      · exact hlt x h
      · simp at h
        rw [h]
        exact hr v t ht
    · simp
      omega

/-- The depth bound `num_vertices` is sufficient at every vertex. -/
theorem covers_all (g : DecayChain) (hr : TargetsInRange g) (ha : Acyclic g) (v : Nat)
    (hv : v < g.num_vertices) : Covers g g.num_vertices v := by
  apply covers_of_path g hr ha g.num_vertices [] v
  · simp
  · intro x hx
    simp at hx
    rw [hx]; exact hv
  · simp

/-- A vertex that is not a root has an incoming edge from an existing vertex. -/
theorem parent_of_not_root (g : DecayChain) (v : Nat) (h : isRoot g v = false) :
    ∃ u, u < g.num_vertices ∧ hasEdge g u v := by
  unfold isRoot at h
  have h2 : ¬ (g.vertices.all (fun sv => sv.out_edges.all (fun e => e.target != v)) = true) := by
    rw [h]; simp
  rw [List.all_eq_true] at h2
  push_neg at h2
  obtain ⟨sv, hsv, hne⟩ := h2
  have hne2 : ¬ (∀ e ∈ sv.out_edges, (e.target != v) = true) := by
    rw [← List.all_eq_true]; exact hne
  push_neg at hne2
  obtain ⟨e, he, het⟩ := hne2
  obtain ⟨u, hu⟩ := List.getElem?_of_mem hsv
  refine ⟨u, (List.getElem?_eq_some_iff.mp hu).1, e, ?_, ?_⟩
  · simp [DecayChain.out_edges, hu, he]
  · simpa using het

/-- Walking backwards from the head of a path reaches a root. -/
theorem reach_from_root (g : DecayChain) (ha : Acyclic g) :
    ∀ (k : Nat) (q : List Nat) (v : Nat), List.Chain' (hasEdge g) (v :: q) →
      (∀ x ∈ v :: q, x < g.num_vertices) → g.num_vertices ≤ k + q.length →
      ∃ r, r ∈ roots g ∧ Relation.ReflTransGen (hasEdge g) r v := by
  intro k
  induction k with
  | zero =>
    intro q v hch hlt hlen
    have h1 := length_le_of_nodup g.num_vertices (v :: q) (nodup_of_chain g ha _ hch) hlt
    simp at h1
    omega
  | succ k ih =>
    intro q v hch hlt hlen
    cases hroot : isRoot g v with
    | true =>
      refine ⟨v, ?_, Relation.ReflTransGen.refl⟩
      unfold roots
      exact List.mem_filter.mpr ⟨List.mem_range.mpr (hlt v (List.mem_cons_self _ _)), hroot⟩
    | false =>
      obtain ⟨u, hu, hedge⟩ := parent_of_not_root g v hroot
      obtain ⟨r, hrr, hreach⟩ := ih (v :: q) u (List.chain'_cons.mpr ⟨hedge, hch⟩)
        (by
          intro x hx
          rcases List.mem_cons.mp hx with h | h
          · rw [h]; exact hu
          · exact hlt x h)
        (by simp; omega)
      exact ⟨r, hrr, hreach.tail hedge⟩

/-- Every vertex of an acyclic graph is reachable from a root. -/
theorem root_reaches (g : DecayChain) (ha : Acyclic g) (v : Nat)
    (hv : v < g.num_vertices) :
    ∃ r, r ∈ roots g ∧ Relation.ReflTransGen (hasEdge g) r v := by
  apply reach_from_root g ha g.num_vertices [] v
  · simp
  · intro x hx
    simp at hx
    rw [hx]; exact hv
  · simp

/-- After the annotation of a well-formed acyclic graph, the shape is unchanged and the
vertex sum and the leaf-edge counts hold at every vertex. -/
theorem annotate_spec (g : DecayChain) (hr : TargetsInRange g) (ha : Acyclic g) :
    (annotate g).shape = g.shape ∧
    ∀ v, VSum (annotate g) v ∧ ∀ j, LeafOK (annotate g) v j := by
  have hroot : ∀ r ∈ roots g, r < g.num_vertices := by
    intro r hmem
    unfold roots at hmem
    exact List.mem_range.mp (List.mem_filter.mp hmem).1
  have hspec : ∀ r, r < g.num_vertices → VisitSpec g (fun s => visit g.num_vertices s r) r :=
    fun r hlt => visit_spec g g.num_vertices r (covers_all g hr ha r hlt)
  have hshape : (annotate g).shape = g.shape := by
    unfold annotate
    exact foldl_keeps (fun acc r => visit g.num_vertices acc r)
      (fun s => s.shape = g.shape) (fun r => r < g.num_vertices)
      (fun s r hlt hs => (hspec r hlt s hs).1) (roots g) hroot g rfl
  refine ⟨hshape, ?_⟩
  intro v
  by_cases hv : v < g.num_vertices
  · obtain ⟨r, hmem, hreach⟩ := root_reaches g ha v hv
    unfold annotate
    exact foldl_reaches (fun acc r => visit g.num_vertices acc r)
      (fun s => s.shape = g.shape) (fun s => VSum s v ∧ ∀ j, LeafOK s v j)
      (fun r => r < g.num_vertices) r
      (fun s i hlt hs => (hspec i hlt s hs).1)
      (fun s hs => (hspec r (hroot r hmem) s hs).2.2.2 v hreach)
      (fun s i hlt hs hq => ⟨(hspec i hlt s hs).2.1 v hq.1,
        fun j => (hspec i hlt s hs).2.2.1 v j (hq.2 j)⟩)
      (roots g) hroot hmem g rfl
  · have hn : (annotate g).vertices[v]? = none := List.getElem?_eq_none (by
      have := num_vertices_of_shape _ _ hshape
      simp only [DecayChain.num_vertices] at this hv
      omega)
    constructor
    · simp [VSum, DecayChain.get_vertex, DecayChain.out_edges, hn, VertexProperty.default,
        sumCumulative]
    · intro j e he
      simp [DecayChain.out_edges, hn] at he

/-- C1: after the depth-first annotation of a decay-chain graph (every edge points to an
existing vertex, and there is no cycle), the cumulative count of every vertex is the sum of
the cumulative counts of its outgoing edges, and every leaf edge (its target has no
outgoing edges) has cumulative count equal to its own hit count; the annotation changes
nothing but cumulative counts. -/
theorem annotate_cumulative (g : DecayChain) (hr : TargetsInRange g) (ha : Acyclic g) :
    (∀ v, ((annotate g).get_vertex v).cumulative_simHits
        = sumCumulative ((annotate g).out_edges v)) ∧
    (∀ v e, e ∈ (annotate g).out_edges v → (annotate g).out_edges e.target = [] →
        e.prop.cumulative_simHits = e.prop.simHits) ∧
    (annotate g).shape = g.shape := by
  obtain ⟨hs, h⟩ := annotate_spec g hr ha
  refine ⟨fun v => (h v).1, ?_, hs⟩
  intro v e hmem hleaf
  obtain ⟨j, hj⟩ := List.getElem?_of_mem hmem
  exact (h v).2 j e hj hleaf

/-- In a graph that passes `edgesAscend`, edges go to existing vertices of larger index. -/
theorem hasEdge_of_edgesAscend (g : DecayChain) (h : edgesAscend g = true) (u t : Nat)
    (he : hasEdge g u t) : u < t ∧ t < g.num_vertices := by
  obtain ⟨e, hmem, ht⟩ := he
  have hu : u < g.num_vertices := by
    by_contra hcon
    have hn : g.vertices[u]? = none := List.getElem?_eq_none (by
      simpa [DecayChain.num_vertices] using hcon)
    simp [DecayChain.out_edges, hn] at hmem
  unfold edgesAscend at h
  rw [List.all_eq_true] at h
  have h1 := h u (List.mem_range.mpr hu)
  rw [List.all_eq_true] at h1
  have h2 := h1 e hmem
  rw [ht] at h2
  simpa using h2

/-- A graph that passes `edgesAscend` has all targets in range. -/
theorem targetsInRange_of_edgesAscend (g : DecayChain) (h : edgesAscend g = true) :
    TargetsInRange g :=
  fun u t he => (hasEdge_of_edgesAscend g h u t he).2

/-- A graph that passes `edgesAscend` is acyclic. -/
theorem acyclic_of_edgesAscend (g : DecayChain) (h : edgesAscend g = true) : Acyclic g := by
  have key : ∀ a b, Relation.TransGen (hasEdge g) a b → a < b := by
    intro a b hab
    induction hab with
    | single he => exact (hasEdge_of_edgesAscend g h _ _ he).1
    | tail _ he ih => exact lt_trans ih (hasEdge_of_edgesAscend g h _ _ he).1
  intro v hv
  exact lt_irrefl v (key v v hv)

/-- The annotation of the scenario graph, evaluated: vertex V gets 5 + 0 = 5, edge A gets
10 + 5 = 15, the root gets 15, and the leaf edges B and C keep 5 and 0. -/
theorem annotate_scenarioGraph :
    annotate scenarioGraph =
      { vertices :=
          [ { out_edges := [{ target := 1, prop := EdgeProperty.ctor (some 100) 10 15 }],
              prop := VertexProperty.ctor none 15 },
            { out_edges := [{ target := 2, prop := EdgeProperty.ctor (some 101) 5 5 },
                            { target := 3, prop := EdgeProperty.ctor (some 102) 0 0 }],
              prop := VertexProperty.ctor (some 100) 5 },
            { out_edges := [], prop := VertexProperty.ctor (some 101) 0 },
            { out_edges := [], prop := VertexProperty.ctor (some 102) 0 } ] } := by
  decide

/-- C1 at the scenario graph of section 8 of the spec. -/
theorem annotate_cumulative_witness :
    (∀ v, ((annotate scenarioGraph).get_vertex v).cumulative_simHits
        = sumCumulative ((annotate scenarioGraph).out_edges v)) ∧
    (∀ v e, e ∈ (annotate scenarioGraph).out_edges v →
        (annotate scenarioGraph).out_edges e.target = [] →
        e.prop.cumulative_simHits = e.prop.simHits) ∧
    (annotate scenarioGraph).shape = scenarioGraph.shape :=
  annotate_cumulative scenarioGraph
    (targetsInRange_of_edgesAscend scenarioGraph (by decide))
    (acyclic_of_edgesAscend scenarioGraph (by decide))

/-! ## Theorems: ghost vertices -/

/-- The second pass from state `st` allocates the consecutive indices from
`st.nextGhost` on, one per track. -/
theorem foldl_linkStep (tracks : List StableTrack) (st : LinkerState) :
    (tracks.foldl linkStep st).ghosts = st.ghosts ++ List.range' st.nextGhost tracks.length ∧
    (tracks.foldl linkStep st).nextGhost = st.nextGhost + tracks.length := by
  induction tracks generalizing st with
  | nil => simp
  | cons t tracks ih =>
    rw [List.foldl_cons]
    obtain ⟨h1, h2⟩ := ih (linkStep st t)
    rw [h1, h2]
    simp [linkStep, List.range'_succ]
    omega

/-- The first ghost index is the number of real vertices. -/
theorem ghostStart_eq (g : DecayChain) : ghostStart g = g.num_vertices := by
  unfold ghostStart
  cases g.num_vertices <;> rfl

/-- C2: every ghost vertex index allocated by the second pass is strictly greater than
every real vertex index of the graph, no ghost index is allocated twice, and one index is
allocated per recovered stable track. -/
theorem ghost_indices_fresh (g : DecayChain) (tracks : List StableTrack) :
    (∀ x ∈ (linkStableParticles g tracks).ghosts, ∀ v, v < g.num_vertices → v < x) ∧
    (linkStableParticles g tracks).ghosts.Nodup ∧
    (linkStableParticles g tracks).ghosts.length = tracks.length := by
  have h := (foldl_linkStep tracks { graph := g, nextGhost := ghostStart g, ghosts := [] }).1
  simp only [List.nil_append] at h
  unfold linkStableParticles
  rw [h]
  refine ⟨?_, List.nodup_range' _ _, by simp⟩
  intro x hx v hv
  rw [List.mem_range'_1, ghostStart_eq] at hx
  omega

/-- The second pass on the scenario of section 8 of the spec, evaluated: the graph built
from track A alone has the real vertices 0 and 1; the stable tracks B and C, produced at
vertex 1, get the ghost vertices 2 and 3. -/
theorem linkStableParticles_scenario :
    (linkStableParticles
      { vertices :=
          [ { out_edges := [{ target := 1, prop := EdgeProperty.ctor (some 100) 10 0 }],
              prop := VertexProperty.default },
            { out_edges := [], prop := VertexProperty.ctor (some 100) 0 } ] }
      [ { simTrack := 101, production := some 1, simHits := 5 },
        { simTrack := 102, production := some 1, simHits := 0 } ]).ghosts = [2, 3] := by
  decide

/-! ## Theorems: `calo_particles` -/

/-- The overlap test is the existence of a common index of the two half-open ranges. -/
theorem rangesOverlap_iff (a b c d : Nat) :
    rangesOverlap a b c d ↔ ∃ x, (a ≤ x ∧ x < b) ∧ (c ≤ x ∧ x < d) := by
  unfold rangesOverlap
  constructor
  · intro h
    refine ⟨max a c, ⟨le_max_left a c, ?_⟩, ⟨le_max_right a c, ?_⟩⟩
    · exact lt_of_lt_of_le h (min_le_left b d)
    · exact lt_of_lt_of_le h (min_le_right b d)
  · rintro ⟨x, ⟨h1, h2⟩, ⟨h3, h4⟩⟩
    exact lt_of_le_of_lt (max_le h1 h3) (lt_min h2 h4)

/-- C5: `swap` and `clear` keep the range invariant: if two states satisfy it, both states
satisfy it after `swap`, and the state satisfies it after `clear`. -/
theorem calo_particles_rangeInv_preserved (a b : calo_particles)
    (ha : a.rangeInv) (hb : b.rangeInv) :
    (a.swap b).1.rangeInv ∧ (a.swap b).2.rangeInv ∧ a.clear.rangeInv := by
  refine ⟨?_, ?_, ?_⟩
  · simpa [calo_particles.swap, calo_particles.rangeInv] using hb
  · simpa [calo_particles.swap, calo_particles.rangeInv] using ha
  · simp [calo_particles.clear, calo_particles.rangeInv]

/-- C5 at two concrete states with three and two cluster ranges. -/
theorem calo_particles_rangeInv_preserved_witness :
    ((calo_particles.mk [0, 3, 7] [3, 7, 7]).swap (calo_particles.mk [4, 1] [9, 2])).1.rangeInv ∧
    ((calo_particles.mk [0, 3, 7] [3, 7, 7]).swap (calo_particles.mk [4, 1] [9, 2])).2.rangeInv ∧
    (calo_particles.mk [0, 3, 7] [3, 7, 7]).clear.rangeInv :=
  calo_particles_rangeInv_preserved (calo_particles.mk [0, 3, 7] [3, 7, 7])
    (calo_particles.mk [4, 1] [9, 2]) (by decide) (by decide)

/-- C6: after `clear` both vectors are empty; `swap` exchanges the two states exactly, and
applying `swap` twice restores both states. -/
theorem calo_particles_clear_swap (a b : calo_particles) :
    (a.clear.sc_start_ = [] ∧ a.clear.sc_stop_ = []) ∧
    ((a.swap b).1.sc_start_ = b.sc_start_ ∧ (a.swap b).1.sc_stop_ = b.sc_stop_ ∧
     (a.swap b).2.sc_start_ = a.sc_start_ ∧ (a.swap b).2.sc_stop_ = a.sc_stop_) ∧
    ((a.swap b).1.swap (a.swap b).2 = (a, b)) := by
  refine ⟨⟨rfl, rfl⟩, ⟨rfl, rfl, rfl, rfl⟩, ?_⟩
  cases a; cases b; rfl

/-! ## Theorems: `CaloJetProxyEveLegoBuilder::build` -/

/-- One pass of the inner loop appends the line `segment m jet iphi`. -/
theorem addSegment_eq {α : Type} [Field α] (m : CMath α) (jet : CaloJet α)
    (c : TEveStraightLineSet α) (iphi : Nat) :
    addSegment m jet c iphi = { c with lines := c.lines ++ [segment m jet iphi] } := rfl

/-- The inner loop over a list of indices appends the segments of these indices. -/
theorem foldl_addSegment {α : Type} [Field α] (m : CMath α) (jet : CaloJet α)
    (js : List Nat) (c : TEveStraightLineSet α) :
    js.foldl (addSegment m jet) c = { c with lines := c.lines ++ js.map (segment m jet) } := by
  induction js generalizing c with
  | nil => simp
  | cons j js ih => simp [List.foldl_cons, ih, addSegment_eq]

/-- The line set built for one jet holds the segments `0 .. nLineSegments - 1` in order. -/
theorem jetContainer_lines {α : Type} [Field α] (m : CMath α) (iItem : FWEventItem α)
    (nm : String) (jet : CaloJet α) :
    (jetContainer m iItem nm jet).lines = (List.range nLineSegments).map (segment m jet) := by
  simp [jetContainer, foldl_addSegment, TEveStraightLineSet.SetLineColor,
    TEveStraightLineSet.ctor]

/-- The line at index `i < 20` of the line set built for one jet is `segment m jet i`. -/
theorem jetContainer_line_at {α : Type} [Field α] (m : CMath α) (iItem : FWEventItem α)
    (nm : String) (jet : CaloJet α) (i : Nat) (hi : i < 20) :
    (jetContainer m iItem nm jet).lines[i]? = some (segment m jet i) := by
  have hi2 : i < nLineSegments := hi
  simp [jetContainer_lines, List.getElem?_map, List.getElem?_range hi2]

/-- The outer loop, started from list `t` and counter `k`: name, title and colour of the
list are kept, the children already there are kept, and one line set per jet is appended,
named after the successive counter values. -/
theorem foldl_jetStep {α : Type} [Field α] (m : CMath α) (counterStr : Nat → String)
    (iItem : FWEventItem α) (jets : List (CaloJet α)) (t : TEveElementList α) (k : Nat) :
    ((jets.foldl (jetStep m counterStr iItem) (t, k)).1.name = t.name ∧
     (jets.foldl (jetStep m counterStr iItem) (t, k)).1.title = t.title ∧
     (jets.foldl (jetStep m counterStr iItem) (t, k)).1.mainColor = t.mainColor) ∧
    (jets.foldl (jetStep m counterStr iItem) (t, k)).1.elements.length
      = t.elements.length + jets.length ∧
    (∀ i, i < t.elements.length →
      (jets.foldl (jetStep m counterStr iItem) (t, k)).1.elements[i]? = t.elements[i]?) ∧
    (∀ i jet, jets[i]? = some jet →
      (jets.foldl (jetStep m counterStr iItem) (t, k)).1.elements[t.elements.length + i]?
        = some (TEveElement.lineSet (jetContainer m iItem (counterStr (k + i)) jet))) := by
  induction jets generalizing t k with
  | nil => simp
  | cons jet jets ih =>
    simp only [List.foldl_cons]
    obtain ⟨⟨h1, h2, h3⟩, h4, h5, h6⟩ := ih (jetStep m counterStr iItem (t, k) jet).1
      (jetStep m counterStr iItem (t, k) jet).2
    have hl : (jetStep m counterStr iItem (t, k) jet).1.elements.length = t.elements.length + 1 := by
      simp [jetStep, TEveElementList.AddElement]
    refine ⟨⟨h1, h2, h3⟩, ?_, ?_, ?_⟩
    · rw [h4, hl]; simp; omega
    · intro i hi
      rw [h5 i (by omega)]
      simp [jetStep, TEveElementList.AddElement, List.getElem?_append_left hi]
    · intro i j hj
      cases i with
      | zero =>
        simp at hj
        subst hj
        rw [Nat.add_zero, h5 _ (by omega)]
        simp [jetStep, TEveElementList.AddElement]
      | succ i =>
        simp at hj
        have := h6 i j hj
        rw [hl] at this
        have e1 : t.elements.length + (i + 1) = t.elements.length + 1 + i := by omega
        have e2 : k + (i + 1) = (jetStep m counterStr iItem (t, k) jet).2 + i := by
          simp [jetStep]; omega
        rw [e1, e2]; exact this

/-- With the jets available, `build` runs the outer loop from an emptied or new list. -/
theorem build_of_jets {α : Type} [Field α] (m : CMath α) (counterStr : Nat → String)
    (iItem : FWEventItem α) (product : Option (TEveElementList α)) (jets : List (CaloJet α))
    (h : iItem.jets = some jets) :
    ∃ t0 : TEveElementList α, t0.elements = [] ∧
      (product = none → t0 = (TEveElementList.ctor iItem.name "JetsLego").SetMainColor iItem.color) ∧
      (∀ l, product = some l → t0 = l.DestroyElements) ∧
      build m counterStr iItem product
        = some (jets.foldl (jetStep m counterStr iItem) (t0, 0)).1 := by
  cases product with
  | none =>
    refine ⟨_, ?_, fun _ => rfl, ?_, ?_⟩
    · rfl
    · intro l hl; cases hl
    · simp [build, h]
  | some l =>
    refine ⟨l.DestroyElements, rfl, ?_, ?_, ?_⟩
    · intro hl; cases hl
    · intro l2 hl; cases hl; rfl
    · simp [build, h]

/-- With the jets available, the product of `build` holds one child per jet, the child at
index `k` being the line set built for jet `k` under the counter value `k`. -/
theorem build_elements {α : Type} [Field α] (m : CMath α)
    (counterStr : Nat → String) (iItem : FWEventItem α)
    (product : Option (TEveElementList α)) (jets : List (CaloJet α))
    (h : iItem.jets = some jets) :
    ∃ tList, build m counterStr iItem product = some tList ∧
      tList.elements.length = jets.length ∧
      (∀ k jet, jets[k]? = some jet →
        tList.elements[k]? =
          some (TEveElement.lineSet (jetContainer m iItem (counterStr k) jet))) := by
  obtain ⟨t0, ht0, -, -, hb⟩ := build_of_jets m counterStr iItem product jets h
  obtain ⟨-, hlen, -, hget⟩ := foldl_jetStep m counterStr iItem jets t0 0
  rw [ht0] at hlen hget
  simp only [List.length_nil, Nat.zero_add] at hlen hget
  exact ⟨_, hb, hlen, hget⟩

/-- C7: when the jet collection is available with `n` jets, the product list after `build`
holds exactly `n` elements, the element at index `k` being the line set built for jet `k`,
with exactly 20 line segments, whatever the product list held before; building a second
time on the result gives the same list again. -/
theorem build_one_lineSet_per_jet {α : Type} [Field α] (m : CMath α)
    (counterStr : Nat → String) (iItem : FWEventItem α)
    (product : Option (TEveElementList α)) (jets : List (CaloJet α))
    (h : iItem.jets = some jets) :
    ∃ tList, build m counterStr iItem product = some tList ∧
      tList.elements.length = jets.length ∧
      (∀ k jet, jets[k]? = some jet →
        ∃ s, tList.elements[k]? = some (TEveElement.lineSet s) ∧
          s = jetContainer m iItem (counterStr k) jet ∧ s.lines.length = 20) ∧
      build m counterStr iItem (build m counterStr iItem product)
        = build m counterStr iItem product := by
  obtain ⟨t0, ht0, hn, hs, hb⟩ := build_of_jets m counterStr iItem product jets h
  obtain ⟨⟨n1, n2, n3⟩, hlen, -, hget⟩ := foldl_jetStep m counterStr iItem jets t0 0
  rw [ht0] at hlen hget
  simp only [List.length_nil, Nat.zero_add] at hlen hget
  refine ⟨_, hb, hlen, ?_, ?_⟩
  · intro k jet hk
    refine ⟨_, hget k jet hk, rfl, ?_⟩
    simp [jetContainer_lines, nLineSegments]
  · obtain ⟨t1, ht1, -, hs1, hb1⟩ := build_of_jets m counterStr iItem
      (build m counterStr iItem product) jets h
    obtain ⟨⟨m1, m2, m3⟩, hlen1, -, hget1⟩ := foldl_jetStep m counterStr iItem jets t1 0
    rw [ht1] at hlen1 hget1
    simp only [List.length_nil, Nat.zero_add] at hlen1 hget1
    have e1 := hs1 _ hb
    rw [hb1, hb]
    congr 1
    have hname : t1.name = t0.name := by rw [e1]; exact n1
    have htitle : t1.title = t0.title := by rw [e1]; exact n2
    have hcol : t1.mainColor = t0.mainColor := by rw [e1]; exact n3
    have hel : (jets.foldl (jetStep m counterStr iItem) (t1, 0)).1.elements
        = (jets.foldl (jetStep m counterStr iItem) (t0, 0)).1.elements := by
      apply List.ext_getElem?
      intro k
      by_cases hk : k < jets.length
      · obtain ⟨jet, hj⟩ : ∃ jet, jets[k]? = some jet := ⟨jets[k], by simp [hk]⟩
        rw [hget k jet hj, hget1 k jet hj]
      · rw [List.getElem?_eq_none (by omega), List.getElem?_eq_none (by omega)]
    cases hA : (jets.foldl (jetStep m counterStr iItem) (t1, 0)).1
    cases hB : (jets.foldl (jetStep m counterStr iItem) (t0, 0)).1
    rw [hA] at m1 m2 m3 hel
    rw [hB] at n1 n2 n3 hel
    simp only at m1 m2 m3 n1 n2 n3 hel
    simp only [TEveElementList.mk.injEq]
    exact ⟨by rw [m1, n1, hname], by rw [m2, n2, htitle], by rw [m3, n3, hcol], hel⟩

/-- C8: when the jet collection cannot be obtained, `build` leaves a non-null product list
with no elements: a new empty list when the pointer was null, the old list with its
elements destroyed otherwise.  The call is not state-preserving: the product differs from
the one handed in when that was null or held elements. -/
theorem build_without_jets {α : Type} [Field α] (m : CMath α)
    (counterStr : Nat → String) (iItem : FWEventItem α)
    (product : Option (TEveElementList α)) (h : iItem.jets = none) :
    ∃ tList, build m counterStr iItem product = some tList ∧
      tList.elements = [] ∧
      (product = none →
        tList = (TEveElementList.ctor iItem.name "JetsLego").SetMainColor iItem.color) ∧
      (∀ l, product = some l → tList = l.DestroyElements) ∧
      (product = none → build m counterStr iItem product ≠ product) ∧
      (∀ l, product = some l → l.elements ≠ [] →
        build m counterStr iItem product ≠ product) := by
  cases product with
  | none =>
    refine ⟨(TEveElementList.ctor iItem.name "JetsLego").SetMainColor iItem.color,
      ?_, rfl, fun _ => rfl, ?_, ?_, ?_⟩
    · simp [build, h]
    · intro l hl; cases hl
    · intro _; simp [build, h]
    · intro l hl; cases hl
  | some l =>
    refine ⟨l.DestroyElements, ?_, rfl, ?_, ?_, ?_, ?_⟩
    · simp [build, h]
    · intro hl; cases hl
    · intro l2 hl; cases hl; rfl
    · intro hl; cases hl
    intro l2 hl hne
    cases hl
    simp only [build, h, ne_eq, Option.some.injEq]
    intro heq
    apply hne
    rw [← heq]
    rfl

/-- C9: over the real numbers, the 20 segments emitted for each jet form a closed loop: the
end point of segment `iphi` is the start point of segment `iphi + 1` for `iphi` in
`0 .. 18`, and the end point of segment 19 is the start point of segment 0. -/
theorem build_segments_closed_loop (counterStr : Nat → String) (iItem : FWEventItem ℝ)
    (product : Option (TEveElementList ℝ)) (jets : List (CaloJet ℝ))
    (h : iItem.jets = some jets) :
    ∃ tList, build (CMath.mk Real.cos Real.sin Real.pi) counterStr iItem product = some tList ∧
      ∀ k, k < jets.length →
        ∃ s, tList.elements[k]? = some (TEveElement.lineSet s) ∧
          (∀ iphi, iphi < 19 → ∃ l1 l2, s.lines[iphi]? = some l1 ∧
            s.lines[iphi + 1]? = some l2 ∧ l1.stop = l2.start) ∧
          (∃ l19 l0, s.lines[19]? = some l19 ∧ s.lines[0]? = some l0 ∧
            l19.stop = l0.start) := by
  obtain ⟨tList, hb, -, hel⟩ :=
    build_elements (CMath.mk Real.cos Real.sin Real.pi) counterStr iItem product jets h
  refine ⟨tList, hb, ?_⟩
  intro k hk
  obtain ⟨s, hs, hseq⟩ : ∃ s, tList.elements[k]? = some (TEveElement.lineSet s) ∧
      s = jetContainer (CMath.mk Real.cos Real.sin Real.pi) iItem (counterStr k) jets[k] :=
    ⟨_, hel k jets[k] (by simp [hk]), rfl⟩
  refine ⟨s, hs, ?_, ?_⟩
  · intro iphi hi
    refine ⟨segment (CMath.mk Real.cos Real.sin Real.pi) jets[k] iphi, segment (CMath.mk Real.cos Real.sin Real.pi) jets[k] (iphi + 1), ?_, ?_, ?_⟩
    · rw [hseq]; exact jetContainer_line_at _ _ _ _ iphi (by omega)
    · rw [hseq]; exact jetContainer_line_at _ _ _ _ (iphi + 1) (by omega)
    · simp [Line.stop, Line.start, segment]
  · refine ⟨segment (CMath.mk Real.cos Real.sin Real.pi) jets[k] 19, segment (CMath.mk Real.cos Real.sin Real.pi) jets[k] 0, ?_, ?_, ?_⟩
    · rw [hseq]; exact jetContainer_line_at _ _ _ _ 19 (by omega)
    · rw [hseq]; exact jetContainer_line_at _ _ _ _ 0 (by omega)
    · have e : 2 * Real.pi / ((nLineSegments : ℕ) : ℝ) * (((19 + 1 : ℕ)) : ℝ) = 2 * Real.pi := by
        simp [nLineSegments]
      simp only [Line.stop, Line.start, segment, e, Real.cos_two_pi, Real.sin_two_pi]
      simp

/-- C10: over the real numbers, both end points `(x, y, z)` of every segment emitted for a
jet at `(eta, phi)` satisfy `(x - eta)^2 + (y - phi)^2 = 0.25` and `z = 0.1`. -/
theorem build_segments_on_circle (counterStr : Nat → String) (iItem : FWEventItem ℝ)
    (product : Option (TEveElementList ℝ)) (jets : List (CaloJet ℝ))
    (h : iItem.jets = some jets) :
    ∃ tList, build (CMath.mk Real.cos Real.sin Real.pi) counterStr iItem product = some tList ∧
      ∀ (k : Nat) (jet : CaloJet ℝ), jets[k]? = some jet →
        ∃ s, tList.elements[k]? = some (TEveElement.lineSet s) ∧
          ∀ l, l ∈ s.lines →
            ((l.x1 - jet.eta) ^ 2 + (l.y1 - jet.phi) ^ 2 = 0.25 ∧ l.z1 = 0.1) ∧
            ((l.x2 - jet.eta) ^ 2 + (l.y2 - jet.phi) ^ 2 = 0.25 ∧ l.z2 = 0.1) := by
  obtain ⟨tList, hb, -, hel⟩ :=
    build_elements (CMath.mk Real.cos Real.sin Real.pi) counterStr iItem product jets h
  refine ⟨tList, hb, ?_⟩
  intro k jet hk
  obtain ⟨s, hs, hseq⟩ : ∃ s, tList.elements[k]? = some (TEveElement.lineSet s) ∧
      s = jetContainer (CMath.mk Real.cos Real.sin Real.pi) iItem (counterStr k) jet :=
    ⟨_, hel k jet hk, rfl⟩
  refine ⟨s, hs, ?_⟩
  intro l hl
  rw [hseq, jetContainer_lines] at hl
  obtain ⟨i, -, rfl⟩ := List.mem_map.mp hl
  have key : ∀ θ : ℝ, (jet.eta + jetRadius * Real.cos θ - jet.eta) ^ 2
      + (jet.phi + jetRadius * Real.sin θ - jet.phi) ^ 2 = 0.25 := by
    intro θ
    have := Real.cos_sq_add_sin_sq θ
    simp only [jetRadius]
    norm_num
    nlinarith [this]
  exact ⟨⟨key _, rfl⟩, ⟨key _, rfl⟩⟩

/-- C7 at two jets and a product list that already holds one stale element. -/
theorem build_one_lineSet_per_jet_witness :
    ∃ tList, build (CMath.mk Real.cos Real.sin Real.pi) (fun k => toString k)
        (FWEventItem.mk "Jets" 2 (some [CaloJet.mk 0 0, CaloJet.mk 1 2]))
        (some (TEveElementList.mk "Jets" "JetsLego" 2 [TEveElement.other "stale"]))
        = some tList ∧ tList.elements.length = 2 :=
  (build_one_lineSet_per_jet (CMath.mk Real.cos Real.sin Real.pi) (fun k => toString k)
    (FWEventItem.mk "Jets" 2 (some [CaloJet.mk 0 0, CaloJet.mk 1 2]))
    (some (TEveElementList.mk "Jets" "JetsLego" 2 [TEveElement.other "stale"]))
    [CaloJet.mk 0 0, CaloJet.mk 1 2] rfl).imp (fun _ ht => ⟨ht.1, ht.2.1⟩)

/-- C8 at an item without jets and a product list that holds one element. -/
theorem build_without_jets_witness :
    ∃ tList, build (CMath.mk Real.cos Real.sin Real.pi) (fun k => toString k)
        (FWEventItem.mk "Jets" 2 none)
        (some (TEveElementList.mk "Jets" "JetsLego" 2 [TEveElement.other "stale"]))
        = some tList ∧ tList.elements = [] :=
  (build_without_jets (CMath.mk Real.cos Real.sin Real.pi) (fun k => toString k)
    (FWEventItem.mk "Jets" 2 none)
    (some (TEveElementList.mk "Jets" "JetsLego" 2 [TEveElement.other "stale"]))
    rfl).imp (fun _ ht => ⟨ht.1, ht.2.1⟩)

/-- C9 at one jet at `(1, 2)`. -/
theorem build_segments_closed_loop_witness :
    ∃ tList, build (CMath.mk Real.cos Real.sin Real.pi) (fun k => toString k)
        (FWEventItem.mk "Jets" 2 (some [CaloJet.mk 1 2])) none = some tList ∧
      ∀ k, k < 1 →
        ∃ s, tList.elements[k]? = some (TEveElement.lineSet s) ∧
          (∀ iphi, iphi < 19 → ∃ l1 l2, s.lines[iphi]? = some l1 ∧
            s.lines[iphi + 1]? = some l2 ∧ l1.stop = l2.start) ∧
          (∃ l19 l0, s.lines[19]? = some l19 ∧ s.lines[0]? = some l0 ∧
            l19.stop = l0.start) :=
  build_segments_closed_loop (fun k => toString k)
    (FWEventItem.mk "Jets" 2 (some [CaloJet.mk 1 2])) none [CaloJet.mk 1 2] rfl

/-- C10 at one jet at `(1, 2)`. -/
theorem build_segments_on_circle_witness :
    ∃ tList, build (CMath.mk Real.cos Real.sin Real.pi) (fun k => toString k)
        (FWEventItem.mk "Jets" 2 (some [CaloJet.mk 1 2])) none = some tList ∧
      ∀ (k : Nat) (jet : CaloJet ℝ), [CaloJet.mk (1 : ℝ) 2][k]? = some jet →
        ∃ s, tList.elements[k]? = some (TEveElement.lineSet s) ∧
          ∀ l, l ∈ s.lines →
            ((l.x1 - jet.eta) ^ 2 + (l.y1 - jet.phi) ^ 2 = 0.25 ∧ l.z1 = 0.1) ∧
            ((l.x2 - jet.eta) ^ 2 + (l.y2 - jet.phi) ^ 2 = 0.25 ∧ l.z2 = 0.1) :=
  build_segments_on_circle (fun k => toString k)
    (FWEventItem.mk "Jets" 2 (some [CaloJet.mk 1 2])) none [CaloJet.mk 1 2] rfl

end Cmssw
